import Mathlib

set_option maxHeartbeats 1000000

/-- A trit is the balanced-ternary digit with value -1, 0 or +1.  Mirrors the
Rust enum Trit {Neg, Zero, Pos}; the variants are declared in that order with
repr(u8), so the derived order is Neg < Zero < Pos. -/
inductive Trit : Type
  | Neg
  | Zero
  | Pos
deriving DecidableEq, Repr

/-- The integer value a trit denotes. -/
def Trit.val : Trit → Int
  | .Neg => -1
  | .Zero => 0
  | .Pos => 1

/-- The Rust discriminant of each variant (repr(u8)): Neg = 0, Zero = 1, Pos = 2. -/
def Trit.disc : Trit → Nat
  | .Neg => 0
  | .Zero => 1
  | .Pos => 2

/-- The derived Ord on Trit compares variants by declaration order, i.e. by
discriminant. -/
def Trit.ltb (a b : Trit) : Bool := a.disc < b.disc

/-- Trit::negate: swap Pos and Neg, Zero is a fixed point. -/
def Trit.negate : Trit → Trit
  | .Neg => .Pos
  | .Zero => .Zero
  | .Pos => .Neg

/-- SumResult: the {result, carry} pair returned by the trit adders. -/
structure SumResult : Type where
  result : Trit
  carry : Trit
deriving DecidableEq, Repr

/-- Trit::add, the half adder.  Arms in source order: either operand Zero
returns the other with no carry; equal non-zero operands return the negation
with the operand as carry; operands that negate each other return Zero with no
carry (the final arm of the Rust match is unreachable and is merged into the
else branch here, which yields the same {Zero, Zero}). -/
def Trit.add (l r : Trit) : SumResult :=
  match l, r with
  | l, .Zero => ⟨l, .Zero⟩
  | .Zero, r => ⟨r, .Zero⟩
  | l, r =>
    if l = r then ⟨l.negate, l⟩
    else ⟨.Zero, .Zero⟩

/-- Trit::add_with_carry, the full adder over three trits, with the guard
arms in source order: any Zero input reduces to the half adder on the other
two; any cancelling pair leaves the third trit as result; otherwise all three
are equal and non-zero, giving result Zero with that trit as carry. -/
def Trit.add_with_carry (l r c : Trit) : SumResult :=
  match l, r, c with
  | .Zero, r, c => r.add c
  | l, .Zero, c => l.add c
  | l, r, .Zero => l.add r
  | l, r, c =>
    if l.negate = r then ⟨c, .Zero⟩
    else if l.negate = c then ⟨r, .Zero⟩
    else if r.negate = c then ⟨l, .Zero⟩
    else ⟨.Zero, l⟩

/-- The character Display emits for one trit: Neg is a minus sign, Zero the
zero digit, Pos a plus sign. -/
def Trit.encode : Trit → Char
  | .Neg => '-'
  | .Zero => '0'
  | .Pos => '+'

/-- Trit::from char, which panics on any character outside the three symbols;
none models the panic. -/
def Trit.decode (c : Char) : Option Trit :=
  if c = '-' then some Trit.Neg
  else if c = '0' then some Trit.Zero
  else if c = '+' then some Trit.Pos
  else none

/-- A Number is the digit array of a Number value of some width N, stored
most-significant digit first, exactly as the Rust [Trit; N]. -/
abbrev Number : Type := List Trit

/-- Integer value of a least-significant-first trit list: the i32 conversion
iterates the digit array in reverse and sums trit times 3 to the index, which
is this fold on the reversed digit list. -/
def valueRev : List Trit → Int
  | [] => 0
  | t :: ts => t.val + 3 * valueRev ts

/-- The From Number for i32 conversion: integer value of the digit array
(most-significant first). -/
def Number.value (l : Number) : Int := valueRev l.reverse

/-- Number::ZERO at width n: every digit Zero. -/
def Number.zero (n : Nat) : Number := List.replicate n Trit.Zero

/-- Number::from_rev_iter: populate a zero-initialised width-n number from a
least-significant-first source, writing source index idx to array position
n-1-idx and stopping after n digits; a short source leaves the high-order
digits Zero. -/
def Number.from_rev_iter (n : Nat) (src : List Trit) : Number :=
  (src.take n ++ List.replicate (n - src.length) Trit.Zero).reverse

/-- Number::from &str at width n.  The source builds a lazy reversed
character iterator mapped through Trit::from and feeds it to from_rev_iter,
whose loop consumes items at indices 0..n inclusive (the item at index n is
pulled before the break), so Trit::from can only panic on one of the n+1
right-most characters; characters further left are never evaluated.  The
digits actually placed are the n right-most ones. -/
def Number.parse (n : Nat) (s : List Char) : Option Number :=
  if (s.reverse.take (n + 1)).all (fun c => (Trit.decode c).isSome) then
    some (Number.from_rev_iter n
      ((s.reverse.take n).map (fun c => (Trit.decode c).getD Trit.Zero)))
  else
    none

/-- The digit characters Display emits for a number, before the space and the
parenthesised integer: each digit in array order through the trit encoding. -/
def Number.encode (l : Number) : List Char := l.map Trit.encode

/-- The Neg operator: digit-wise Trit::negate over the array. -/
def Number.negate (l : Number) : Number := l.map Trit.negate

/-- The reverse-order zip-and-scan at the heart of the Add operator: walk both
digit lists least-significant first, full-adding matching digits with the
running carry and emitting each result; the zip stops at the shorter list. -/
def addRev : List Trit → List Trit → Trit → List Trit
  | [], _, _ => []
  | _ :: _, [], _ => []
  | l :: ls, r :: rs, c =>
    (Trit.add_with_carry l r c).result :: addRev ls rs (Trit.add_with_carry l r c).carry

/-- The carry left over after the scan of addRev: Zero carries beyond the most
significant digit are what the Add operator silently drops. -/
def addCarry : List Trit → List Trit → Trit → Trit
  | [], _, c => c
  | _ :: _, [], c => c
  | l :: ls, r :: rs, c => addCarry ls rs (Trit.add_with_carry l r c).carry

/-- The Add operator on Numbers: scan the reversed digit lists with the full
adder and rebuild through from_rev_iter. -/
def Number.add (a b : Number) : Number :=
  Number.from_rev_iter a.length (addRev a.reverse b.reverse Trit.Zero)

/-- The reverse-order for_each loop of the AddAssign operator: the receiver's
digits are overwritten least-significant first; receiver digits beyond the
rhs length are left untouched. -/
def addAssignRev : List Trit → List Trit → Trit → List Trit
  | [], _, _ => []
  | l :: ls, [], _ => l :: ls
  | l :: ls, r :: rs, c =>
    (Trit.add_with_carry l r c).result :: addAssignRev ls rs (Trit.add_with_carry l r c).carry

/-- The AddAssign operator on Numbers: final digit array of the in-place
full-adder loop. -/
def Number.add_assign (a b : Number) : Number :=
  (addAssignRev a.reverse b.reverse Trit.Zero).reverse

/-- The AddAssign Trit loop: add a single trit at the least-significant digit
and propagate the carry upward, exiting early once the carry is Zero. -/
def addTritRev : List Trit → Trit → List Trit
  | [], _ => []
  | t :: ts, c =>
    if c = Trit.Zero then t :: ts
    else (t.add c).result :: addTritRev ts (t.add c).carry

/-- AddAssign of a single Trit on a Number. -/
def Number.add_trit (a : Number) (t : Trit) : Number :=
  (addTritRev a.reverse t).reverse

/-- Number::inc: add the Pos trit at the least-significant digit. -/
def Number.inc (a : Number) : Number := Number.add_trit a Trit.Pos

/-- The derived Ord on Number: lexicographic comparison of the digit arrays
from index 0 (the most-significant digit), each digit compared by the derived
Trit order. -/
def Number.ltb : Number → Number → Bool
  | [], [] => false
  | [], _ :: _ => true
  | _ :: _, [] => false
  | a :: as, b :: bs => if a = b then Number.ltb as bs else Trit.ltb a b

/-- The Shl operator: for a shift of at least the width the result is the
Zero constant; otherwise copy digits [k..N) of the source into positions
[0..N-k) of a zero-initialised output, leaving the k low positions Zero. -/
def Number.shl (a : Number) (k : Nat) : Number :=
  if a.length ≤ k then Number.zero a.length
  else a.drop k ++ List.replicate k Trit.Zero

/-- The ShlAssign operator: for a shift of at least the width, fill the whole
array with Zero; otherwise rotate the digit array left by k (drop k ++ take k
for k below the length) and zero-fill the k least-significant positions. -/
def Number.shl_assign (a : Number) (k : Nat) : Number :=
  if a.length ≤ k then Number.zero a.length
  else ((a.drop k ++ a.take k).take (a.length - k)) ++ List.replicate k Trit.Zero

/-- The repeated-subtraction loop of the Div operator: while the remainder is
at least the divisor, subtract the divisor (an in-place add of its negation)
and increment the quotient.  The Rust loop is unbounded; the fuel argument
makes the model structurally recursive, and the termination theorem shows the
fuel the Div operator passes is never exhausted (none models exhaustion). -/
def divLoop : Nat → Number → Number → Number → Option Number
  | 0, _, _, _ => none
  | fuel + 1, d, r, q =>
    if Number.ltb r d then some q
    else divLoop fuel d (Number.add_assign r (Number.negate d)) (Number.inc q)

/-- The Div operator.  none models the divide-by-zero panic.  Otherwise take
absolute values of numerator and divisor (negating a negative operand,
remembering each original sign), run the repeated-subtraction loop from a Zero
quotient, and negate the quotient when exactly one operand was negative. -/
def Number.div (a b : Number) : Option Number :=
  if b = Number.zero b.length then none
  else
    let negN : Bool := Number.ltb a (Number.zero a.length)
    let r : Number := if negN then Number.negate a else a
    let negD : Bool := Number.ltb b (Number.zero b.length)
    let d : Number := if negD then Number.negate b else b
    match divLoop (3 ^ a.length) d r (Number.zero a.length) with
    | none => none
    | some q => some (if Bool.xor negN negD then Number.negate q else q)

/-- Truncating (toward zero) integer division, the arithmetic the Div
operator is claimed to compute: quotient of the absolute values, negated when
the operand signs differ. -/
def tdiv (x y : Int) : Int :=
  if (x < 0 ↔ y < 0) then |x| / |y| else -(|x| / |y|)

theorem Trit.add_val (l r : Trit) :
    (l.add r).result.val + 3 * (l.add r).carry.val = l.val + r.val := by
  cases l <;> cases r <;> rfl

theorem Trit.add_with_carry_val (l r c : Trit) :
    (Trit.add_with_carry l r c).result.val + 3 * (Trit.add_with_carry l r c).carry.val
      = l.val + r.val + c.val := by
  cases l <;> cases r <;> cases c <;> rfl

theorem Trit.negate_val (t : Trit) : t.negate.val = -t.val := by
  cases t <;> rfl

theorem Trit.ltb_iff_val (a b : Trit) : Trit.ltb a b = true ↔ a.val < b.val := by
  cases a <;> cases b <;> decide

theorem valueRev_append (u v : List Trit) :
    valueRev (u ++ v) = valueRev u + 3 ^ u.length * valueRev v := by
  induction u with
  | nil => simp [valueRev]
  | cons t ts ih =>
    show t.val + 3 * valueRev (ts ++ v)
      = valueRev (t :: ts) + 3 ^ (t :: ts).length * valueRev v
    rw [ih, valueRev, List.length_cons, pow_succ]
    ring

theorem valueRev_replicate_zero (n : Nat) :
    valueRev (List.replicate n Trit.Zero) = 0 := by
  induction n with
  | zero => rfl
  | succ m ih => simp [List.replicate, valueRev, ih, Trit.val]

theorem two_abs_valueRev_le (l : List Trit) : 2 * |valueRev l| ≤ 3 ^ l.length - 1 := by
  induction l with
  | nil => simp [valueRev]
  | cons t ts ih =>
    have ht : |t.val| ≤ 1 := by cases t <;> simp [Trit.val]
    have h1 : |valueRev (t :: ts)| ≤ |t.val| + 3 * |valueRev ts| := by
      calc |valueRev (t :: ts)| = |t.val + 3 * valueRev ts| := by rw [valueRev]
      _ ≤ |t.val| + |3 * valueRev ts| := abs_add _ _
      _ = |t.val| + 3 * |valueRev ts| := by rw [abs_mul]; norm_num
    have h2 : (3 : Int) ^ (t :: ts).length = 3 ^ ts.length * 3 := by
      rw [List.length_cons, pow_succ]
    rw [h2]
    linarith

theorem valueRev_inj : ∀ {x y : List Trit},
    x.length = y.length → valueRev x = valueRev y → x = y := by
  intro x
  induction x with
  | nil =>
    intro y h _
    cases y with
    | nil => rfl
    | cons s ss => simp at h
  | cons t ts ih =>
    intro y h hv
    cases y with
    | nil => simp at h
    | cons s ss =>
      have hlen : ts.length = ss.length := by simpa using h
      have hv' : t.val + 3 * valueRev ts = s.val + 3 * valueRev ss := by
        simpa [valueRev] using hv
      have hts : t = s ∧ valueRev ts = valueRev ss := by
        cases t <;> cases s <;> simp [Trit.val] at hv' ⊢ <;> omega
      rw [hts.1, ih hlen hts.2]

theorem Number.value_nil : Number.value [] = 0 := rfl

theorem Number.value_cons (t : Trit) (ts : Number) :
    Number.value (t :: ts) = t.val * 3 ^ ts.length + Number.value ts := by
  unfold Number.value
  rw [List.reverse_cons, valueRev_append, List.length_reverse]
  simp only [valueRev]
  ring

theorem Number.value_append (u w : Number) :
    Number.value (u ++ w) = Number.value u * 3 ^ w.length + Number.value w := by
  show valueRev (u ++ w).reverse = _
  rw [List.reverse_append, valueRev_append, List.length_reverse]
  unfold Number.value
  ring

theorem Number.value_zero (n : Nat) : Number.value (Number.zero n) = 0 := by
  show valueRev (List.replicate n Trit.Zero).reverse = 0
  rw [List.reverse_replicate, valueRev_replicate_zero]

theorem Number.two_abs_value_le (l : Number) : 2 * |Number.value l| ≤ 3 ^ l.length - 1 := by
  have h := two_abs_valueRev_le l.reverse
  rwa [List.length_reverse] at h

theorem Number.value_inj {a b : Number} (hlen : a.length = b.length)
    (hv : Number.value a = Number.value b) : a = b := by
  have h1 : a.reverse.length = b.reverse.length := by
    rw [List.length_reverse, List.length_reverse, hlen]
  have h2 := valueRev_inj h1 hv
  have h3 := congrArg List.reverse h2
  rwa [List.reverse_reverse, List.reverse_reverse] at h3

theorem Number.negate_length (l : Number) : (Number.negate l).length = l.length :=
  List.length_map l Trit.negate

theorem valueRev_map_negate (l : List Trit) :
    valueRev (l.map Trit.negate) = -valueRev l := by
  induction l with
  | nil => rfl
  | cons t ts ih =>
    show (Trit.negate t).val + 3 * valueRev (ts.map Trit.negate) = -(t.val + 3 * valueRev ts)
    rw [ih, Trit.negate_val]
    ring

theorem Number.value_negate (l : Number) :
    Number.value (Number.negate l) = -Number.value l := by
  show valueRev (l.map Trit.negate).reverse = -valueRev l.reverse
  rw [← List.map_reverse, valueRev_map_negate]

theorem Number.from_rev_iter_length (n : Nat) (src : List Trit) :
    (Number.from_rev_iter n src).length = n := by
  unfold Number.from_rev_iter
  rw [List.length_reverse, List.length_append, List.length_take, List.length_replicate]
  omega

theorem Number.from_rev_iter_of_length {n : Nat} {src : List Trit}
    (h : src.length = n) : Number.from_rev_iter n src = src.reverse := by
  unfold Number.from_rev_iter
  rw [h, Nat.sub_self, List.replicate_zero, List.append_nil,
    List.take_of_length_le (le_of_eq h)]

theorem addRev_eq_addAssignRev : ∀ (x y : List Trit) (c : Trit),
    x.length = y.length → addRev x y c = addAssignRev x y c := by
  intro x
  induction x with
  | nil =>
    intro y c h
    cases y with
    | nil => rfl
    | cons s ss => simp at h
  | cons l ls ih =>
    intro y c h
    cases y with
    | nil => simp at h
    | cons r rs =>
      have hlen : ls.length = rs.length := by simpa using h
      show _ :: addRev ls rs _ = _ :: addAssignRev ls rs _
      rw [ih rs _ hlen]

theorem addAssignRev_length : ∀ (x y : List Trit) (c : Trit),
    (addAssignRev x y c).length = x.length := by
  intro x
  induction x with
  | nil => intro y c; cases y <;> rfl
  | cons l ls ih =>
    intro y c
    cases y with
    | nil => rfl
    | cons r rs =>
      show (_ :: addAssignRev ls rs _).length = _
      rw [List.length_cons, List.length_cons, ih rs]

theorem addRev_val : ∀ (x y : List Trit) (c : Trit), x.length = y.length →
    valueRev (addRev x y c) + 3 ^ x.length * (addCarry x y c).val
      = valueRev x + valueRev y + c.val := by
  intro x
  induction x with
  | nil =>
    intro y c h
    cases y with
    | nil => show (0 : Int) + 1 * c.val = 0 + 0 + c.val; ring
    | cons s ss => simp at h
  | cons l ls ih =>
    intro y c h
    cases y with
    | nil => simp at h
    | cons r rs =>
      have hlen : ls.length = rs.length := by simpa using h
      have hstep := Trit.add_with_carry_val l r c
      have hrec := ih rs (Trit.add_with_carry l r c).carry hlen
      show (Trit.add_with_carry l r c).result.val
          + 3 * valueRev (addRev ls rs (Trit.add_with_carry l r c).carry)
          + 3 ^ (ls.length + 1) * (addCarry ls rs (Trit.add_with_carry l r c).carry).val
        = (l.val + 3 * valueRev ls) + (r.val + 3 * valueRev rs) + c.val
      rw [pow_succ]
      nlinarith [hstep, hrec]

theorem Number.add_length (a b : Number) : (Number.add a b).length = a.length :=
  Number.from_rev_iter_length _ _

theorem Number.add_value_sub {a b : Number} (hlen : a.length = b.length) :
    ∃ k : Trit, Number.value (Number.add a b)
      = Number.value a + Number.value b - 3 ^ a.length * k.val := by
  refine ⟨addCarry a.reverse b.reverse Trit.Zero, ?_⟩
  have hr : a.reverse.length = b.reverse.length := by
    rw [List.length_reverse, List.length_reverse, hlen]
  have hmain := addRev_val a.reverse b.reverse Trit.Zero hr
  have hlen2 : (addRev a.reverse b.reverse Trit.Zero).length = a.length := by
    have : (addRev a.reverse b.reverse Trit.Zero) = addAssignRev a.reverse b.reverse Trit.Zero :=
      addRev_eq_addAssignRev _ _ _ hr
    rw [this, addAssignRev_length, List.length_reverse]
  have hfrom : Number.add a b = (addRev a.reverse b.reverse Trit.Zero).reverse := by
    unfold Number.add
    exact Number.from_rev_iter_of_length hlen2
  have hval : Number.value (Number.add a b) = valueRev (addRev a.reverse b.reverse Trit.Zero) := by
    rw [hfrom]
    unfold Number.value
    rw [List.reverse_reverse]
  rw [hval]
  rw [List.length_reverse] at hmain
  show valueRev (addRev a.reverse b.reverse Trit.Zero)
    = valueRev a.reverse + valueRev b.reverse - 3 ^ a.length * _
  have hz : Trit.val Trit.Zero = 0 := rfl
  omega

theorem two_abs_bounds {x m : Int} (h : 2 * |x| ≤ m) : -m ≤ 2 * x ∧ 2 * x ≤ m := by
  have h2 : |2 * x| ≤ m := by
    rw [abs_mul, abs_two]
    exact h
  exact abs_le.mp h2

theorem Number.add_value_exact {a b : Number} (hlen : a.length = b.length)
    (hbound : 2 * |Number.value a + Number.value b| ≤ 3 ^ a.length - 1) :
    Number.value (Number.add a b) = Number.value a + Number.value b := by
  obtain ⟨k, hk⟩ := Number.add_value_sub hlen
  have hres := Number.two_abs_value_le (Number.add a b)
  rw [Number.add_length] at hres
  have h1 := two_abs_bounds hres
  have h2 := two_abs_bounds hbound
  have h3 : (0 : Int) < 3 ^ a.length := pow_pos (by norm_num) _
  cases k <;> simp [Trit.val] at hk <;> linarith

theorem addTritRev_length : ∀ (x : List Trit) (c : Trit), (addTritRev x c).length = x.length := by
  intro x
  induction x with
  | nil => intro c; rfl
  | cons t ts ih =>
    intro c
    show (if c = Trit.Zero then t :: ts
      else (t.add c).result :: addTritRev ts (t.add c).carry).length = ts.length + 1
    by_cases hc : c = Trit.Zero
    · rw [if_pos hc, List.length_cons]
    · rw [if_neg hc, List.length_cons, ih]

theorem addTritRev_val : ∀ (x : List Trit) (c : Trit),
    ∃ k : Trit, valueRev (addTritRev x c) = valueRev x + c.val - 3 ^ x.length * k.val := by
  intro x
  induction x with
  | nil =>
    intro c
    exact ⟨c, by show (0 : Int) = 0 + c.val - 1 * c.val; ring⟩
  | cons t ts ih =>
    intro c
    by_cases hc : c = Trit.Zero
    · refine ⟨Trit.Zero, ?_⟩
      show valueRev (if c = Trit.Zero then t :: ts else _) = _
      rw [if_pos hc, hc]
      show valueRev (t :: ts) = valueRev (t :: ts) + (0 : Int) - 3 ^ (t :: ts).length * 0
      ring
    · obtain ⟨k, hk⟩ := ih (t.add c).carry
      refine ⟨k, ?_⟩
      show valueRev (if c = Trit.Zero then t :: ts else _) = _
      rw [if_neg hc]
      show (t.add c).result.val + 3 * valueRev (addTritRev ts (t.add c).carry)
        = (t.val + 3 * valueRev ts) + c.val - 3 ^ (ts.length + 1) * k.val
      have hstep := Trit.add_val t c
      rw [hk, pow_succ]
      nlinarith [hstep]

theorem Number.add_trit_length (a : Number) (t : Trit) :
    (Number.add_trit a t).length = a.length := by
  unfold Number.add_trit
  rw [List.length_reverse, addTritRev_length, List.length_reverse]

theorem Number.add_trit_value_sub (a : Number) (t : Trit) :
    ∃ k : Trit, Number.value (Number.add_trit a t)
      = Number.value a + t.val - 3 ^ a.length * k.val := by
  obtain ⟨k, hk⟩ := addTritRev_val a.reverse t
  refine ⟨k, ?_⟩
  unfold Number.value Number.add_trit
  rw [List.reverse_reverse, hk, List.length_reverse]

theorem Number.inc_length (a : Number) : (Number.inc a).length = a.length :=
  Number.add_trit_length a Trit.Pos

theorem Number.inc_value_exact {a : Number}
    (hbound : 2 * |Number.value a + 1| ≤ 3 ^ a.length - 1) :
    Number.value (Number.inc a) = Number.value a + 1 := by
  obtain ⟨k, hk⟩ := Number.add_trit_value_sub a Trit.Pos
  have hres := Number.two_abs_value_le (Number.inc a)
  rw [Number.inc_length] at hres
  have h1 := two_abs_bounds hres
  have h2 := two_abs_bounds hbound
  have h3 : (0 : Int) < 3 ^ a.length := pow_pos (by norm_num) _
  have hk' : Number.value (Number.inc a) = Number.value a + 1 - 3 ^ a.length * k.val := by
    show Number.value (Number.add_trit a Trit.Pos) = _
    rw [hk]
    rfl
  cases k <;> simp [Trit.val] at hk' <;> linarith

theorem Number.ltb_iff : ∀ {a b : Number}, a.length = b.length →
    (Number.ltb a b = true ↔ Number.value a < Number.value b) := by
  intro a
  induction a with
  | nil =>
    intro b h
    cases b with
    | nil => simp [Number.ltb]
    | cons s ss => simp at h
  | cons t ts ih =>
    intro b h
    cases b with
    | nil => simp at h
    | cons s ss =>
      have hlen : ts.length = ss.length := by simpa using h
      rw [Number.value_cons, Number.value_cons, ← hlen]
      by_cases hts : t = s
      · subst hts
        have hstep : Number.ltb (t :: ts) (t :: ss) = Number.ltb ts ss := by
          show (if t = t then Number.ltb ts ss else Trit.ltb t t) = _
          rw [if_pos rfl]
        rw [hstep, ih hlen]
        constructor
        · intro hlt; linarith
        · intro hlt; linarith
      · show (if t = s then Number.ltb ts ss else Trit.ltb t s) = true ↔ _
        rw [if_neg hts]
        have h1 := two_abs_bounds (Number.two_abs_value_le ts)
        have h2 := two_abs_bounds (Number.two_abs_value_le ss)
        rw [← hlen] at h2
        have h3 : (0 : Int) < 3 ^ ts.length := pow_pos (by norm_num) _
        cases t <;> cases s <;>
          simp only [Trit.ltb, Trit.disc, Trit.val] <;>
          norm_num <;>
          first
          | (exact absurd rfl hts)
          | linarith

theorem Number.zero_length (n : Nat) : (Number.zero n).length = n :=
  List.length_replicate n Trit.Zero

theorem Number.value_ne_zero {b : Number} (h : b ≠ Number.zero b.length) :
    Number.value b ≠ 0 := by
  intro hv
  apply h
  refine Number.value_inj ?_ ?_
  · rw [Number.zero_length]
  · rw [hv, Number.value_zero]

theorem Number.add_assign_length (a b : Number) :
    (Number.add_assign a b).length = a.length := by
  unfold Number.add_assign
  rw [List.length_reverse, addAssignRev_length, List.length_reverse]

theorem Number.add_assign_eq_add {a b : Number} (h : a.length = b.length) :
    Number.add_assign a b = Number.add a b := by
  have hr : a.reverse.length = b.reverse.length := by
    rw [List.length_reverse, List.length_reverse, h]
  have h1 : addRev a.reverse b.reverse Trit.Zero = addAssignRev a.reverse b.reverse Trit.Zero :=
    addRev_eq_addAssignRev _ _ _ hr
  have h2 : (addRev a.reverse b.reverse Trit.Zero).length = a.length := by
    rw [h1, addAssignRev_length, List.length_reverse]
  unfold Number.add Number.add_assign
  rw [Number.from_rev_iter_of_length h2, h1]

theorem tdiv_abs (x y : Int) : |tdiv x y| = |x| / |y| := by
  have hnn : 0 ≤ |x| / |y| := Int.ediv_nonneg (abs_nonneg x) (abs_nonneg y)
  unfold tdiv
  split
  · exact abs_of_nonneg hnn
  · rw [abs_neg]
    exact abs_of_nonneg hnn

theorem tdiv_zero_left (y : Int) : tdiv 0 y = 0 := by
  unfold tdiv
  split <;> simp

theorem tdiv_neg_left (x y : Int) : tdiv (-x) y = -(tdiv x y) := by
  unfold tdiv
  split_ifs with h1 h2 h2
  · have hx : x = 0 := by omega
    subst hx
    simp
  · rw [abs_neg, neg_neg]
  · rw [abs_neg]
  · have hx : x = 0 := by omega
    subst hx
    simp

theorem tdiv_neg_right (x y : Int) : tdiv x (-y) = -(tdiv x y) := by
  unfold tdiv
  split_ifs with h1 h2 h2
  · have hy : y = 0 := by omega
    subst hy
    simp
  · rw [abs_neg, neg_neg]
  · rw [abs_neg]
  · have hy : y = 0 := by omega
    subst hy
    simp

theorem divLoop_spec : ∀ (fuel : Nat) (d r q : Number),
    r.length = d.length → q.length = d.length →
    1 ≤ Number.value d → 0 ≤ Number.value r → 0 ≤ Number.value q →
    2 * (Number.value q + Number.value r / Number.value d) ≤ 3 ^ d.length - 1 →
    (Number.value r).toNat < fuel →
    ∃ p, divLoop fuel d r q = some p ∧ p.length = d.length ∧
      Number.value p = Number.value q + Number.value r / Number.value d := by
  intro fuel
  induction fuel with
  | zero =>
    intro d r q _ _ _ hr _ _ hfuel
    omega
  | succ fuel ih =>
    intro d r q hrl hql hd hr hq hbound hfuel
    have hdpos : (0 : Int) < Number.value d := by linarith
    by_cases hlt : Number.ltb r d = true
    · have hvlt : Number.value r < Number.value d := (Number.ltb_iff hrl).mp hlt
      have hdiv0 : Number.value r / Number.value d = 0 := Int.ediv_eq_zero_of_lt hr hvlt
      refine ⟨q, ?_, hql, ?_⟩
      · show (if Number.ltb r d then some q else _) = some q
        rw [hlt, if_pos rfl]
      · rw [hdiv0]
        ring
    · have hvge : Number.value d ≤ Number.value r := by
        have := (Number.ltb_iff hrl).not.mp hlt
        push_neg at this
        exact this
      have hrbound := two_abs_bounds (Number.two_abs_value_le r)
      have hnl : (Number.negate d).length = d.length := Number.negate_length d
      have hrnl : r.length = (Number.negate d).length := by rw [hnl, hrl]
      have hsub : Number.value (Number.add_assign r (Number.negate d))
          = Number.value r - Number.value d := by
        rw [Number.add_assign_eq_add hrnl]
        have hb : 2 * |Number.value r + Number.value (Number.negate d)| ≤ 3 ^ r.length - 1 := by
          rw [Number.value_negate]
          rw [abs_of_nonneg (by linarith : (0:Int) ≤ Number.value r + -Number.value d)]
          linarith
        rw [Number.add_value_exact hrnl hb, Number.value_negate]
        ring
      have hone : 1 ≤ Number.value r / Number.value d := by
        rw [Int.le_ediv_iff_mul_le hdpos]
        linarith
      have hinc : Number.value (Number.inc q) = Number.value q + 1 := by
        apply Number.inc_value_exact
        rw [abs_of_nonneg (by linarith : (0:Int) ≤ Number.value q + 1)]
        rw [hql]
        linarith
      have hshift : (Number.value r - Number.value d) / Number.value d
          = Number.value r / Number.value d - 1 := by
        have hne : Number.value d ≠ 0 := ne_of_gt hdpos
        have := Int.add_mul_ediv_right (Number.value r) (-1) hne
        have heq : Number.value r + -1 * Number.value d = Number.value r - Number.value d := by
          ring
        rw [heq] at this
        rw [this]
        ring
      have hrl2 : (Number.add_assign r (Number.negate d)).length = d.length := by
        rw [Number.add_assign_length, hrl]
      have hql2 : (Number.inc q).length = d.length := by
        rw [Number.inc_length, hql]
      have hr2 : 0 ≤ Number.value (Number.add_assign r (Number.negate d)) := by
        rw [hsub]
        linarith
      have hq2 : 0 ≤ Number.value (Number.inc q) := by
        rw [hinc]
        linarith
      have hbound2 : 2 * (Number.value (Number.inc q)
          + Number.value (Number.add_assign r (Number.negate d)) / Number.value d)
          ≤ 3 ^ d.length - 1 := by
        rw [hinc, hsub, hshift]
        linarith
      have hfuel2 : (Number.value (Number.add_assign r (Number.negate d))).toNat < fuel := by
        rw [hsub]
        omega
      have hsub_rw : Number.value (Number.add_assign r (Number.negate d)) / Number.value d
          = Number.value r / Number.value d - 1 := by
        rw [hsub, hshift]
      obtain ⟨p, hp, hpl, hpv⟩ := ih d (Number.add_assign r (Number.negate d)) (Number.inc q)
        hrl2 hql2 hd hr2 hq2 hbound2 hfuel2
      refine ⟨p, ?_, hpl, ?_⟩
      · show (if Number.ltb r d then some q else divLoop fuel d _ _) = some p
        rw [if_neg hlt]
        exact hp
      · rw [hpv, hinc, hsub_rw]
        ring

theorem Number.ltb_zero_iff (a : Number) :
    Number.ltb a (Number.zero a.length) = true ↔ Number.value a < 0 := by
  rw [Number.ltb_iff (by rw [Number.zero_length]), Number.value_zero]

theorem Number.abs_part_value (a : Number) :
    Number.value (if Number.ltb a (Number.zero a.length) then Number.negate a else a)
      = |Number.value a| := by
  by_cases hna : Number.ltb a (Number.zero a.length) = true
  · rw [if_pos hna, Number.value_negate, abs_of_neg ((Number.ltb_zero_iff a).mp hna)]
  · have hge : 0 ≤ Number.value a := by
      have := (Number.ltb_zero_iff a).not.mp hna
      push_neg at this
      exact this
    rw [if_neg hna, abs_of_nonneg hge]

theorem Number.abs_part_length (a : Number) :
    (if Number.ltb a (Number.zero a.length) then Number.negate a else a).length
      = a.length := by
  by_cases hna : Number.ltb a (Number.zero a.length) = true
  · rw [if_pos hna, Number.negate_length]
  · rw [if_neg hna]

theorem Number.div_char {a b : Number} (hlen : a.length = b.length)
    (hbz : Number.value b ≠ 0) :
    ∃ q, Number.div a b = some q ∧ q.length = a.length ∧
      Number.value q = tdiv (Number.value a) (Number.value b) := by
  have hbne : b ≠ Number.zero b.length := by
    intro h
    exact hbz (by rw [h, Number.value_zero])
  have hdiveq : Number.div a b
      = (match divLoop (3 ^ a.length)
            (if Number.ltb b (Number.zero b.length) then Number.negate b else b)
            (if Number.ltb a (Number.zero a.length) then Number.negate a else a)
            (Number.zero a.length) with
          | none => none
          | some q => some (if Bool.xor (Number.ltb a (Number.zero a.length))
              (Number.ltb b (Number.zero b.length)) then Number.negate q else q)) := by
    unfold Number.div
    rw [if_neg hbne]
  have hrval := Number.abs_part_value a
  have hdval := Number.abs_part_value b
  have hrlen := Number.abs_part_length a
  have hdlen := Number.abs_part_length b
  have habs2 := Number.two_abs_value_le a
  have hd1 : (1 : Int) ≤ |Number.value b| := Int.one_le_abs hbz
  have hq0len : (Number.zero a.length).length
      = (if Number.ltb b (Number.zero b.length) then Number.negate b else b).length := by
    rw [Number.zero_length, hdlen, hlen]
  have hfloor_le : |Number.value a| / |Number.value b| ≤ |Number.value a| :=
    Int.ediv_le_self _ (abs_nonneg _)
  have hp3 : ((3 : Int)) ^ a.length = ((3 ^ a.length : Nat) : Int) := by
    push_cast
    ring
  obtain ⟨p, hp, hplen, hpval⟩ := divLoop_spec (3 ^ a.length)
    (if Number.ltb b (Number.zero b.length) then Number.negate b else b)
    (if Number.ltb a (Number.zero a.length) then Number.negate a else a)
    (Number.zero a.length)
    (by rw [hrlen, hdlen, hlen])
    hq0len
    (by rw [hdval]; exact hd1)
    (by rw [hrval]; exact abs_nonneg _)
    (by rw [Number.value_zero])
    (by
      rw [hrval, hdval, Number.value_zero, hdlen, ← hlen]
      have : |Number.value a| / |Number.value b| ≤ |Number.value a| := hfloor_le
      linarith)
    (by
      rw [hrval]
      rw [hp3] at habs2
      have hga : 0 ≤ |Number.value a| := abs_nonneg _
      have hg1 : 0 < 3 ^ a.length := pow_pos (by norm_num) a.length
      omega)
  rw [Number.value_zero, hrval, hdval, zero_add] at hpval
  refine ⟨if Bool.xor (Number.ltb a (Number.zero a.length))
      (Number.ltb b (Number.zero b.length)) then Number.negate p else p, ?_, ?_, ?_⟩
  · rw [hdiveq]
    simp only [hp]
  · by_cases hx : Bool.xor (Number.ltb a (Number.zero a.length))
        (Number.ltb b (Number.zero b.length)) = true
    · rw [if_pos hx, Number.negate_length, hplen, hdlen, hlen]
    · rw [if_neg hx, hplen, hdlen, hlen]
  · have hna := Number.ltb_zero_iff a
    have hnb := Number.ltb_zero_iff b
    by_cases hva : Number.value a < 0
    · have hba : Number.ltb a (Number.zero a.length) = true := hna.mpr hva
      by_cases hvb : Number.value b < 0
      · have hbb : Number.ltb b (Number.zero b.length) = true := hnb.mpr hvb
        rw [hba, hbb]
        show Number.value p = tdiv (Number.value a) (Number.value b)
        rw [hpval]
        unfold tdiv
        rw [if_pos (by constructor <;> intro <;> assumption)]
      · have hbb : Number.ltb b (Number.zero b.length) = false :=
          Bool.not_eq_true _ ▸ eq_false_of_ne_true (hnb.not.mpr (by exact hvb))
        rw [hba, hbb]
        show Number.value (Number.negate p) = tdiv (Number.value a) (Number.value b)
        rw [Number.value_negate, hpval]
        unfold tdiv
        rw [if_neg (by
          intro hiff
          exact hvb (hiff.mp hva))]
    · have hba : Number.ltb a (Number.zero a.length) = false :=
        Bool.not_eq_true _ ▸ eq_false_of_ne_true (hna.not.mpr (by exact hva))
      by_cases hvb : Number.value b < 0
      · have hbb : Number.ltb b (Number.zero b.length) = true := hnb.mpr hvb
        rw [hba, hbb]
        show Number.value (Number.negate p) = tdiv (Number.value a) (Number.value b)
        rw [Number.value_negate, hpval]
        unfold tdiv
        rw [if_neg (by
          intro hiff
          exact hva (hiff.mpr hvb))]
      · have hbb : Number.ltb b (Number.zero b.length) = false :=
          Bool.not_eq_true _ ▸ eq_false_of_ne_true (hnb.not.mpr (by exact hvb))
        rw [hba, hbb]
        show Number.value p = tdiv (Number.value a) (Number.value b)
        rw [hpval]
        unfold tdiv
        rw [if_pos (by
          constructor
          · intro h
            exact absurd h hva
          · intro h
            exact absurd h hvb)]

/-- C6: dividing any Number by the all-Zero divisor of any width, the Zero
numerator included, fails with the DivisionByZero failure: the Div operator
checks the divisor against the Zero constant first and terminates immediately
with no result. -/
theorem div_by_zero_fatal (a : Number) (n : Nat) :
    Number.div a (Number.zero n) = none := by
  unfold Number.div
  rw [Number.zero_length, if_pos rfl]

/-- C9: the value-returning left shift (copy digits k.. into the low positions
of a zero-initialised result) and the in-place left shift (rotate left by k,
then zero-fill the k least-significant positions) produce identical digit
sequences for every Number and every shift count. -/
theorem shl_eq_shl_assign (a : Number) (k : Nat) :
    Number.shl a k = Number.shl_assign a k := by
  unfold Number.shl Number.shl_assign
  by_cases h : a.length ≤ k
  · rw [if_pos h, if_pos h]
  · rw [if_neg h, if_neg h]
    have hlen : (a.drop k).length = a.length - k := List.length_drop k a
    rw [List.take_left' hlen]

/-- C10: the value-returning Add (scan plus rebuild via from_rev_iter) and the
separately implemented in-place AddAssign (for_each over the receiver) yield
identical digit sequences on operands of equal width. -/
theorem add_operators_agree (a b : Number) (hlen : a.length = b.length) :
    Number.add a b = Number.add_assign a b :=
  (Number.add_assign_eq_add hlen).symm

/-- C10 witness: the two additions agree on the concrete pair from the test
suite, 23 + 33 at width 8. -/
theorem add_operators_agree_witness :
    ([Trit.Pos, Trit.Zero, Trit.Neg, Trit.Neg] : Number).length
      = ([Trit.Pos, Trit.Pos, Trit.Neg, Trit.Zero] : Number).length ∧
    Number.add [Trit.Pos, Trit.Zero, Trit.Neg, Trit.Neg]
        [Trit.Pos, Trit.Pos, Trit.Neg, Trit.Zero]
      = Number.add_assign [Trit.Pos, Trit.Zero, Trit.Neg, Trit.Neg]
        [Trit.Pos, Trit.Pos, Trit.Neg, Trit.Zero] :=
  ⟨rfl, add_operators_agree _ _ rfl⟩

/-- C3: the derived lexicographic comparison of the digit arrays
(most-significant first, Neg below Zero below Pos) agrees with numeric order:
for Numbers of equal width, a is below b exactly when the integer value of a
is below the integer value of b. -/
theorem lt_iff_value_lt (a b : Number) (hlen : a.length = b.length) :
    Number.ltb a b = true ↔ Number.value a < Number.value b :=
  Number.ltb_iff hlen

/-- C3 witness: the ordering equivalence instantiated at the concrete pair
-17 and 17 at width 4. -/
theorem lt_iff_value_lt_witness :
    ([Trit.Neg, Trit.Pos, Trit.Zero, Trit.Pos] : Number).length
      = ([Trit.Pos, Trit.Neg, Trit.Zero, Trit.Neg] : Number).length ∧
    (Number.ltb [Trit.Neg, Trit.Pos, Trit.Zero, Trit.Pos]
        [Trit.Pos, Trit.Neg, Trit.Zero, Trit.Neg] = true
      ↔ Number.value [Trit.Neg, Trit.Pos, Trit.Zero, Trit.Pos]
        < Number.value [Trit.Pos, Trit.Neg, Trit.Zero, Trit.Neg]) :=
  ⟨rfl, lt_iff_value_lt _ _ rfl⟩

/-- C2: on operands of equal width N, the Add operator always produces a
result (it is a total function) whose integer value is congruent to the sum
of the operand values modulo 3 to the N (the final carry out of the
most-significant digit is silently dropped), and whenever the exact sum lies
in the representable range the result is exactly the sum. -/
theorem add_wraps_mod_pow (a b : Number) (hlen : a.length = b.length) :
    Int.ModEq (3 ^ a.length) (Number.value (Number.add a b))
      (Number.value a + Number.value b) ∧
    (2 * |Number.value a + Number.value b| ≤ 3 ^ a.length - 1 →
      Number.value (Number.add a b) = Number.value a + Number.value b) := by
  constructor
  · obtain ⟨k, hk⟩ := Number.add_value_sub hlen
    have hdiff : (Number.value a + Number.value b) - Number.value (Number.add a b)
        = 3 ^ a.length * k.val := by
      rw [hk]
      ring
    exact Int.modEq_iff_dvd.mpr ⟨k.val, hdiff⟩
  · exact Number.add_value_exact hlen

/-- C2 witness: at width 1, the overflowing sum 1 + 1 is congruent to 2 mod 3
(it wraps to -1); the in-range implication is instantiated alongside. -/
theorem add_wraps_mod_pow_witness :
    ([Trit.Pos] : Number).length = ([Trit.Pos] : Number).length ∧
    (Int.ModEq (3 ^ ([Trit.Pos] : Number).length)
        (Number.value (Number.add [Trit.Pos] [Trit.Pos]))
        (Number.value [Trit.Pos] + Number.value [Trit.Pos]) ∧
      (2 * |Number.value [Trit.Pos] + Number.value [Trit.Pos]|
          ≤ 3 ^ ([Trit.Pos] : Number).length - 1 →
        Number.value (Number.add [Trit.Pos] [Trit.Pos])
          = Number.value [Trit.Pos] + Number.value [Trit.Pos])) :=
  ⟨rfl, add_wraps_mod_pow [Trit.Pos] [Trit.Pos] rfl⟩

/-- C8: for every numerator and every non-Zero divisor of the same width, the
repeated-subtraction division loop terminates and the Div operator produces a
result: the fuel bound (the representable numeric range) is never exhausted. -/
theorem div_terminates (N : Nat) (a b : Number) (ha : a.length = N)
    (hb : b.length = N) (hbz : b ≠ Number.zero N) :
    ∃ q, Number.div a b = some q := by
  have hlen : a.length = b.length := by rw [ha, hb]
  have hbz' : Number.value b ≠ 0 := by
    apply Number.value_ne_zero
    rw [hb]
    exact hbz
  obtain ⟨q, hq, _, _⟩ := Number.div_char hlen hbz'
  exact ⟨q, hq⟩

/-- C8 witness: division of 2 by 1 at width 2 terminates with a result. -/
theorem div_terminates_witness :
    ([Trit.Pos, Trit.Neg] : Number).length = 2 ∧
    ([Trit.Zero, Trit.Pos] : Number).length = 2 ∧
    ([Trit.Zero, Trit.Pos] : Number) ≠ Number.zero 2 ∧
    (∃ q, Number.div [Trit.Pos, Trit.Neg] [Trit.Zero, Trit.Pos] = some q) :=
  ⟨rfl, rfl, by decide, div_terminates 2 _ _ rfl rfl (by decide)⟩

/-- C4: shifting by at least the width yields the Zero constant, and for a
shift below the width that loses no non-zero high-order digit the shifted
value is the original value multiplied by 3 to the shift count. -/
theorem shl_mul_pow (v : Number) (k : Nat) :
    (v.length ≤ k → Number.shl v k = Number.zero v.length) ∧
    (k < v.length → (∀ t ∈ v.take k, t = Trit.Zero) →
      Number.value (Number.shl v k) = Number.value v * 3 ^ k) := by
  constructor
  · intro h
    unfold Number.shl
    rw [if_pos h]
  · intro hk hz
    unfold Number.shl
    rw [if_neg (not_le.mpr hk)]
    have hrep : Number.value (List.replicate k Trit.Zero) = 0 := Number.value_zero k
    have h1 : Number.value (v.drop k ++ List.replicate k Trit.Zero)
        = Number.value (v.drop k) * 3 ^ k := by
      rw [Number.value_append, List.length_replicate, hrep]
      ring
    have htake : v.take k = List.replicate k Trit.Zero := by
      rw [List.eq_replicate_iff]
      refine ⟨?_, hz⟩
      rw [List.length_take]
      omega
    have h2 : Number.value v = Number.value (v.drop k) := by
      conv_lhs => rw [← List.take_append_drop k v]
      rw [Number.value_append, htake, hrep]
      ring
    rw [h1, ← h2]

/-- C4 witness: at width 3, shifting the value 1 by one position with an
all-Zero shifted-out prefix triples it, and shifting by 5 at least the width
clears the number. -/
theorem shl_mul_pow_witness :
    (1 < ([Trit.Zero, Trit.Zero, Trit.Pos] : Number).length ∧
      (∀ t ∈ ([Trit.Zero, Trit.Zero, Trit.Pos] : Number).take 1, t = Trit.Zero) ∧
      Number.value (Number.shl [Trit.Zero, Trit.Zero, Trit.Pos] 1)
        = Number.value [Trit.Zero, Trit.Zero, Trit.Pos] * 3 ^ 1) ∧
    (([Trit.Zero, Trit.Zero, Trit.Pos] : Number).length ≤ 5 ∧
      Number.shl [Trit.Zero, Trit.Zero, Trit.Pos] 5
        = Number.zero ([Trit.Zero, Trit.Zero, Trit.Pos] : Number).length) :=
  ⟨⟨by decide, by decide,
      (shl_mul_pow [Trit.Zero, Trit.Zero, Trit.Pos] 1).2 (by decide) (by decide)⟩,
    ⟨by decide, (shl_mul_pow [Trit.Zero, Trit.Zero, Trit.Pos] 5).1 (by decide)⟩⟩

/-- C5: decoding any string of exactly N symbols drawn from the three valid
digit characters into a width-N Number and re-encoding the digit array (the N
characters Display emits before the space and the parenthesised integer)
yields the original string. -/
theorem parse_encode_roundtrip (N : Nat) (s : List Char) (hlen : s.length = N)
    (hval : ∀ c ∈ s, c = '+' ∨ c = '0' ∨ c = '-') :
    ∃ t, Number.parse N s = some t ∧ Number.encode t = s := by
  refine ⟨s.map (fun c => (Trit.decode c).getD Trit.Zero), ?_, ?_⟩
  · unfold Number.parse
    have hrevlen : s.reverse.length = N := by rw [List.length_reverse, hlen]
    have htake1 : s.reverse.take (N + 1) = s.reverse :=
      List.take_of_length_le (by omega)
    have hall : (s.reverse.take (N + 1)).all (fun c => (Trit.decode c).isSome) = true := by
      rw [htake1, List.all_eq_true]
      intro c hc
      have hc' : c ∈ s := List.mem_reverse.mp hc
      rcases hval c hc' with h | h | h <;> subst h <;> rfl
    rw [if_pos hall]
    have htakeN : s.reverse.take N = s.reverse :=
      List.take_of_length_le (le_of_eq hrevlen)
    rw [htakeN]
    have hmaplen : (s.reverse.map (fun c => (Trit.decode c).getD Trit.Zero)).length = N := by
      rw [List.length_map, hrevlen]
    rw [Number.from_rev_iter_of_length hmaplen, List.map_reverse, List.reverse_reverse]
  · unfold Number.encode
    rw [List.map_map]
    have hpt : ∀ c ∈ s, (Trit.encode ∘ fun c => (Trit.decode c).getD Trit.Zero) c = id c := by
      intro c hc
      rcases hval c hc with h | h | h <;> subst h <;> rfl
    rw [List.map_congr_left hpt, List.map_id]

/-- C5 witness: the two-character string plus-minus decodes at width 2 and
re-encodes to itself. -/
theorem parse_encode_roundtrip_witness :
    (['+', '-'] : List Char).length = 2 ∧
    (∀ c ∈ (['+', '-'] : List Char), c = '+' ∨ c = '0' ∨ c = '-') ∧
    (∃ t, Number.parse 2 ['+', '-'] = some t ∧ Number.encode t = ['+', '-']) :=
  ⟨rfl, by decide, parse_encode_roundtrip 2 ['+', '-'] rfl (by decide)⟩

/-- C7 counterexample: the string x00 contains the invalid character x, yet
decoding it into a width-1 Number does not fail: the lazy reversed iterator
never reaches the invalid character (only the N+1 right-most characters are
ever parsed), so a truncated Number is produced. -/
theorem parse_invalid_counterexample :
    Number.parse 1 ['x', '0', '0'] = some [Trit.Zero] := by decide

/-- C7 (amended): for every input string with a character outside the three
valid symbols among its N+1 right-most characters, decoding into a width-N
Number fails with the InvalidDigit error and no partial Number is produced;
an invalid character appearing only further left is silently discarded by
the width-N truncation and decoding succeeds. -/
theorem parse_invalid_fatal (N : Nat) (s : List Char)
    (h : ∃ c ∈ s.reverse.take (N + 1), Trit.decode c = none) :
    Number.parse N s = none := by
  have hnall : ¬((s.reverse.take (N + 1)).all (fun c => (Trit.decode c).isSome) = true) := by
    rw [List.all_eq_true]
    push_neg
    obtain ⟨c, hc, hdec⟩ := h
    refine ⟨c, hc, ?_⟩
    rw [hdec]
    decide
  unfold Number.parse
  rw [if_neg hnall]

/-- C7 witness: the string x0 has the invalid x among the two right-most
characters, and decoding at width 1 fails. -/
theorem parse_invalid_fatal_witness :
    (∃ c ∈ (['x', '0'] : List Char).reverse.take 2, Trit.decode c = none) ∧
    Number.parse 1 ['x', '0'] = none :=
  ⟨by decide, parse_invalid_fatal 1 ['x', '0'] (by decide)⟩

/-- C1: for every width-N numerator a and non-Zero width-N divisor b, the Div
operator returns the truncated-toward-zero quotient: the result q satisfies
the absolute-value quotient inequalities of the repeated subtraction, and the
sign identities hold, with the Zero numerator dividing to Zero. -/
theorem div_correct (N : Nat) (a b : Number) (ha : a.length = N)
    (hb : b.length = N) (hbz : b ≠ Number.zero N) :
    ∃ q, Number.div a b = some q ∧
      |Number.value q| * |Number.value b| ≤ |Number.value a| ∧
      |Number.value a| < (|Number.value q| + 1) * |Number.value b| ∧
      Number.div (Number.negate a) b = some (Number.negate q) ∧
      Number.div a (Number.negate b) = some (Number.negate q) ∧
      Number.div (Number.negate a) (Number.negate b) = some q ∧
      Number.div (Number.zero N) b = some (Number.zero N) := by
  have hlen : a.length = b.length := by rw [ha, hb]
  have hbz' : Number.value b ≠ 0 := by
    apply Number.value_ne_zero
    rw [hb]
    exact hbz
  obtain ⟨q, hq, hqlen, hqval⟩ := Number.div_char hlen hbz'
  have habsq : |Number.value q| = |Number.value a| / |Number.value b| := by
    rw [hqval, tdiv_abs]
  have hYpos : (0 : Int) < |Number.value b| := abs_pos.mpr hbz'
  have hdm := Int.ediv_add_emod' |Number.value a| |Number.value b|
  have hr0 : (0 : Int) ≤ |Number.value a| % |Number.value b| :=
    Int.emod_nonneg _ (ne_of_gt hYpos)
  have hr1 : |Number.value a| % |Number.value b| < |Number.value b| :=
    Int.emod_lt_of_pos _ hYpos
  have hnegb : Number.value (Number.negate b) ≠ 0 := by
    rw [Number.value_negate]
    exact neg_ne_zero.mpr hbz'
  obtain ⟨q1, hq1, hq1len, hq1val⟩ :=
    Number.div_char (a := Number.negate a) (b := b) (by rw [Number.negate_length, hlen]) hbz'
  obtain ⟨q2, hq2, hq2len, hq2val⟩ :=
    Number.div_char (a := a) (b := Number.negate b) (by rw [Number.negate_length, hlen]) hnegb
  obtain ⟨q3, hq3, hq3len, hq3val⟩ :=
    Number.div_char (a := Number.negate a) (b := Number.negate b)
      (by rw [Number.negate_length, Number.negate_length, hlen]) hnegb
  obtain ⟨q4, hq4, hq4len, hq4val⟩ :=
    Number.div_char (a := Number.zero N) (b := b) (by rw [Number.zero_length, hb]) hbz'
  have hq1eq : q1 = Number.negate q := by
    apply Number.value_inj
    · rw [hq1len, Number.negate_length, Number.negate_length, hqlen]
    · rw [hq1val, Number.value_negate, Number.value_negate, tdiv_neg_left, hqval]
  have hq2eq : q2 = Number.negate q := by
    apply Number.value_inj
    · rw [hq2len, Number.negate_length, hqlen]
    · rw [hq2val, Number.value_negate, Number.value_negate, tdiv_neg_right, hqval]
  have hq3eq : q3 = q := by
    apply Number.value_inj
    · rw [hq3len, Number.negate_length, hqlen]
    · rw [hq3val, Number.value_negate, Number.value_negate, tdiv_neg_left, tdiv_neg_right,
        neg_neg, hqval]
  have hq4eq : q4 = Number.zero N := by
    apply Number.value_inj
    · rw [hq4len]
    · rw [hq4val, Number.value_zero, tdiv_zero_left]
  refine ⟨q, hq, ?_, ?_, ?_, ?_, ?_, ?_⟩
  · rw [habsq]
    linarith
  · rw [habsq]
    have hexp : (|Number.value a| / |Number.value b| + 1) * |Number.value b|
        = |Number.value a| / |Number.value b| * |Number.value b| + |Number.value b| := by
      ring
    rw [hexp]
    linarith
  · rw [hq1eq] at hq1
    exact hq1
  · rw [hq2eq] at hq2
    exact hq2
  · rw [hq3eq] at hq3
    exact hq3
  · rw [hq4eq] at hq4
    exact hq4

/-- C1 witness: dividing 2 by 1 at width 2 instantiates the quotient bounds,
all four sign identities and the Zero-numerator identity. -/
theorem div_correct_witness :
    ([Trit.Pos, Trit.Neg] : Number).length = 2 ∧
    ([Trit.Zero, Trit.Pos] : Number).length = 2 ∧
    ([Trit.Zero, Trit.Pos] : Number) ≠ Number.zero 2 ∧
    (∃ q, Number.div [Trit.Pos, Trit.Neg] [Trit.Zero, Trit.Pos] = some q ∧
      |Number.value q| * |Number.value [Trit.Zero, Trit.Pos]|
        ≤ |Number.value [Trit.Pos, Trit.Neg]| ∧
      |Number.value [Trit.Pos, Trit.Neg]|
        < (|Number.value q| + 1) * |Number.value [Trit.Zero, Trit.Pos]| ∧
      Number.div (Number.negate [Trit.Pos, Trit.Neg]) [Trit.Zero, Trit.Pos]
        = some (Number.negate q) ∧
      Number.div [Trit.Pos, Trit.Neg] (Number.negate [Trit.Zero, Trit.Pos])
        = some (Number.negate q) ∧
      Number.div (Number.negate [Trit.Pos, Trit.Neg]) (Number.negate [Trit.Zero, Trit.Pos])
        = some q ∧
      Number.div (Number.zero 2) [Trit.Zero, Trit.Pos] = some (Number.zero 2)) :=
  ⟨rfl, rfl, by decide, div_correct 2 _ _ rfl rfl (by decide)⟩
